import Mathlib

/-!
Verification development for the ARCNet `cifa_cleaning` matching / parallel
subsystem (`src/cifa_cleaning/matching.py`, `src/cifa_cleaning/parallel.py`).

The embedding models a pandas DataFrame as a list of rows plus a list of
column names; text values are lists of characters and a cell is an optional
text value (`none` models NaN).  Similarity scores are rational numbers in
[0,100]; they are built with `mkRat`, which is value-equal to the floating
formula `100 - 100 * dist / lensum` used by rapidfuzz (bridging lemmas
below).  Python dicts are modelled as association lists with
insertion-order update semantics, and `rapidfuzz.process.extract` as
score-descending stable sorting of the scored choices followed by
`take limit`.
-/

namespace ARCNet

/-- A text value (Python string), as a list of characters. -/
abbrev Str := List Char

/-- A DataFrame cell; `none` models a missing value (NaN). -/
abbrev Cell := Option Str

/-- Shorthand for writing embedded text values. -/
def str (s : String) : Str := s.data

/-- One record row.  The linkage attributes used by `assign_parent_cifas` and
`apply_cross_references` are dedicated fields; the free-text matching columns
live in `attrs`.  `item_last_update` is modelled as a total integer
timestamp, so rows with a missing (NaT) timestamp are outside this
embedding's scope. -/
structure Rec where
  cifa : Nat
  cross_reference : Option Nat
  mapped_source : Option Str
  item_last_update : Int
  attrs : List (String × Cell)
  deriving DecidableEq, Inhabited, Repr

/-- A record table: column names plus rows. -/
structure Table where
  cols : List String
  rows : List Rec
  deriving DecidableEq, Inhabited, Repr

/-- Cell lookup, `row[col]`. -/
def Rec.get (r : Rec) (c : String) : Cell :=
  match r.attrs.find? (fun p => decide (p.1 = c)) with
  | some p => p.2
  | none => none

/-- Python-dict style update on an association list: an existing key keeps its
position and gets the new value, a new key is appended. -/
def updAssoc {α β : Type} [DecidableEq α] (m : List (α × β)) (k : α) (v : β) :
    List (α × β) :=
  if m.any (fun p => decide (p.1 = k)) then
    m.map (fun p => if p.1 = k then (k, v) else p)
  else m ++ [(k, v)]

/-- Python `dict.get(k, d)`. -/
def getAssoc {α β : Type} [DecidableEq α] (m : List (α × β)) (k : α) (d : β) : β :=
  match m.find? (fun p => decide (p.1 = k)) with
  | some p => p.2
  | none => d

/-- Set a column value on a row (`data[col] = ...`, one row at a time). -/
def Rec.setAttr (r : Rec) (c : String) (v : Cell) : Rec :=
  { r with attrs := updAssoc r.attrs c v }

/-- Stable insertion: `before y x = true` means an existing element `y` stays
ahead of the inserted element `x`. -/
def insertStable {α : Type} (before : α → α → Bool) (x : α) : List α → List α
  | [] => [x]
  | y :: ys => if before y x then y :: insertStable before x ys else x :: y :: ys

/-- Stable insertion sort driven by `before`. -/
def sortStable {α : Type} (before : α → α → Bool) : List α → List α
  | [] => []
  | x :: xs => insertStable before x (sortStable before xs)

/-- Stable sort, descending in a rational key (ties keep their original
relative order). -/
def sortDescByQ {α : Type} (key : α → ℚ) (l : List α) : List α :=
  sortStable (fun y x => decide (key x < key y)) l

/-- Stable sort, descending in an integer key. -/
def sortDescByInt {α : Type} (key : α → Int) (l : List α) : List α :=
  sortStable (fun y x => decide (key x < key y)) l

/-- Python string comparison (lexicographic on code points). -/
def strLtB : Str → Str → Bool
  | [], [] => false
  | [], _ :: _ => true
  | _ :: _, [] => false
  | a :: as, b :: bs => if a < b then true else if b < a then false else strLtB as bs

/-- Python `sorted` on strings. -/
def sortStrAsc (l : List Str) : List Str :=
  sortStable (fun y x => strLtB y x) l

/-! ### Similarity scorers (rapidfuzz `fuzz.token_sort_ratio` / `fuzz.token_set_ratio`) -/

/-- Longest-common-subsequence length, structurally recursive on a fuel
argument (each recursive call removes at least one character, so a fuel of
`a.length + b.length` never runs out). -/
def lcsAux : Nat → Str → Str → Nat
  | 0, _, _ => 0
  | _ + 1, [], _ => 0
  | _ + 1, _ :: _, [] => 0
  | fuel + 1, a :: as, b :: bs =>
    if a = b then lcsAux fuel as bs + 1
    else max (lcsAux fuel (a :: as) bs) (lcsAux fuel as (b :: bs))

/-- Length of a longest common subsequence; the rapidfuzz Indel distance of
`a` and `b` is `a.length + b.length - 2 * lcsLen a b`. -/
def lcsLen (a b : Str) : Nat :=
  lcsAux (a.length + b.length) a b

/-- rapidfuzz `fuzz.ratio`: normalized Indel similarity scaled to [0,100].
`mkRat (100 * (lensum - dist)) lensum` is the exact rational value of
`100 - 100 * dist / lensum`. -/
def indelSim (a b : Str) : ℚ :=
  let la := a.length
  let lb := b.length
  if la + lb = 0 then 100
  else
    let dist := la + lb - 2 * lcsLen a b
    mkRat (↑(100 * (la + lb - dist))) (la + lb)

/-- Python `s.split()`: maximal non-whitespace runs (`acc` holds the reversed
current run). -/
def pyTokensAux (acc : Str) : Str → List Str
  | [] => if acc = [] then [] else [acc.reverse]
  | c :: cs =>
    if c.isWhitespace then
      if acc = [] then pyTokensAux [] cs else acc.reverse :: pyTokensAux [] cs
    else pyTokensAux (c :: acc) cs

/-- Python `s.split()`. -/
def pyTokens (s : Str) : List Str :=
  pyTokensAux [] s

/-- Python `" ".join(l)`. -/
def joinSp : List Str → Str
  | [] => []
  | [x] => x
  | x :: y :: rest => x ++ ' ' :: joinSp (y :: rest)

/-- `" ".join(sorted(s.split()))`. -/
def sortedJoin (s : Str) : Str :=
  joinSp (sortStrAsc (pyTokens s))

/-- rapidfuzz `fuzz.token_sort_ratio`. -/
def tokenSortSim (a b : Str) : ℚ :=
  indelSim (sortedJoin a) (sortedJoin b)

/-- `set(s.split())`, canonically represented as a sorted duplicate-free
token list. -/
def tokSet (s : Str) : List Str :=
  (sortStrAsc (pyTokens s)).dedup

/-- rapidfuzz `fuzz.token_set_ratio`: compares the token-set intersection and
the two sorted differences, taking the best of the three alignments.  The two
length-based alignments use `mkRat (100 * (den - num)) den`, the exact value
of `100 - 100 * num / den`. -/
def tokenSetSim (a b : Str) : ℚ :=
  let ta := tokSet a
  let tb := tokSet b
  if ta = [] ∨ tb = [] then 0
  else
    let sect := ta.filter (fun x => decide (x ∈ tb))
    let dab := ta.filter (fun x => decide (x ∉ tb))
    let dba := tb.filter (fun x => decide (x ∉ ta))
    if sect ≠ [] ∧ (dab = [] ∨ dba = []) then 100
    else
      let abJ := joinSp dab
      let baJ := joinSp dba
      let sectLen := (joinSp sect).length
      let b1 : Nat := if sectLen = 0 then 0 else 1
      let num1 := b1 + abJ.length
      let den1 := sectLen + (sectLen + b1 + abJ.length)
      let num2 := b1 + baJ.length
      let den2 := sectLen + (sectLen + b1 + baJ.length)
      max (indelSim abJ baJ)
        (max (mkRat (↑(100 * (den1 - num1))) den1) (mkRat (↑(100 * (den2 - num2))) den2))

/-! ### `rapidfuzz.process.extract` -/

/-- Score every non-missing choice, keeping its original index. -/
def scoredChoices (scorer : Str → Str → ℚ) (q : Str)
    (choices : List Cell) : List (Str × ℚ × Nat) :=
  choices.enum.filterMap (fun p => p.2.map (fun c => (c, scorer q c, p.1)))

/-- `process.extract(q, choices, scorer=..., score_cutoff=..., limit=...)`:
matches not below the cutoff, sorted by score descending (stable), truncated
to `limit`.  Each match is `(choice, score, index)`.  A missing query yields
no matches. -/
def extractTop (scorer : Str → Str → ℚ) (q : Cell) (choices : List Cell)
    (cutoff : Option ℚ) (limit : Nat) : List (Str × ℚ × Nat) :=
  match q with
  | none => []
  | some qs =>
    let scored := scoredChoices scorer qs choices
    let kept :=
      match cutoff with
      | none => scored
      | some t => scored.filter (fun m => decide (t ≤ m.2.1))
    (sortDescByQ (fun m => m.2.1) kept).take limit

/-! ### matching.py -/

/-- The per-anchor-row body shared by `group_similar_records` (lines 37-47)
and `compare_group` (lines 198-208): per key column, extract the top `limit`
candidates from the pool column, keep those meeting the threshold, and record
`(candidate cifa_number, score)`.  A key column absent from the anchor table
is skipped. -/
def rowMatches (scorer : Str → Str → ℚ) (limit : Nat)
    (anchorCols : List String) (pool : List Rec) (keyCols : List String)
    (t : ℚ) (row : Rec) : List (Nat × ℚ) :=
  keyCols.flatMap (fun kc =>
    if kc ∈ anchorCols then
      (extractTop scorer (row.get kc) (pool.map (fun r => r.get kc)) none limit).filterMap
        (fun m =>
          if t ≤ m.2.1 then some ((pool.getD m.2.2 default).cifa, m.2.1) else none)
    else [])

/-- matching.py lines 49-53: deduplicate matches through a Python dict,
keeping `max(score, unique_matches.get(cifa, 0))` per candidate. -/
def dedupMax (ms : List (Nat × ℚ)) : List (Nat × ℚ) :=
  ms.foldl (fun m p => updAssoc m p.1 (max p.2 (getAssoc m p.1 0))) []

/-- The common grouping contract with the similarity variant and shortlist
size as explicit parameters: one `(anchor cifa, deduplicated matches)` pair
per anchor row, candidates drawn from `pool`. -/
def buildGroups (scorer : Str → Str → ℚ) (limit : Nat)
    (anchors : Table) (pool : Table) (keyCols : List String) (t : ℚ) :
    List (Nat × List (Nat × ℚ)) :=
  anchors.rows.map (fun row =>
    (row.cifa, dedupMax (rowMatches scorer limit anchors.cols pool.rows keyCols t row)))

/-- matching.py `group_similar_records(data, key_columns, threshold=90)`:
anchor rows and candidate pool are both `data`; scorer is
`fuzz.token_set_ratio`, shortlist limit 10. -/
def groupSimilarRecords (data : Table) (keyCols : List String) (t : ℚ) :
    List (Nat × List (Nat × ℚ)) :=
  data.rows.map (fun row =>
    (row.cifa, dedupMax (rowMatches tokenSetSim 10 data.cols data.rows keyCols t row)))

/-- matching.py `compare_group(group, data, key_columns, threshold=90)`:
anchor rows come from `group`, but candidates are extracted from the full
`data`; scorer is `fuzz.token_sort_ratio`, shortlist limit 5. -/
def compareGroup (group : Table) (data : Table) (keyCols : List String) (t : ℚ) :
    List (Nat × List (Nat × ℚ)) :=
  group.rows.map (fun row =>
    (row.cifa, dedupMax (rowMatches tokenSortSim 5 group.cols data.rows keyCols t row)))

/-- Eligibility test of matching.py lines 81-82: no existing cross reference
and not mapped from a description. -/
def eligibleParent (r : Rec) : Bool :=
  decide (r.cross_reference = none) && decide (r.mapped_source ≠ some (str "description"))

/-- matching.py line 74: the records whose `cifa_number` occurs in the group,
in table order. -/
def groupCandidates (data : Table) (group : List (Nat × ℚ)) : List Rec :=
  data.rows.filter (fun r => decide (r.cifa ∈ group.map Prod.fst))

/-- matching.py lines 77-78: sort the candidates by `item_last_update`
descending when that column exists.  pandas `sort_values` uses
`kind='quicksort'`, which guarantees the descending order but not the
relative order of ties; this embedding determinizes the tie order with a
stable insertion sort, so only order-insensitive facts (such as the
no-self-loop invariant) should be read off this definition. -/
def sortedCandidates (data : Table) (group : List (Nat × ℚ)) : List Rec :=
  if "item_last_update" ∈ data.cols then
    sortDescByInt (fun r => r.item_last_update) (groupCandidates data group)
  else groupCandidates data group

/-- matching.py lines 75-86: `none` when no candidate record resolves,
otherwise the first sorted candidate passing the eligibility filter, falling
back to the first sorted candidate. -/
def chooseParent (data : Table) (group : List (Nat × ℚ)) : Option Rec :=
  match sortedCandidates data group with
  | [] => none
  | c :: cs =>
    match (c :: cs).filter eligibleParent with
    | [] => some c
    | p :: _ => some p

/-- matching.py `assign_parent_cifas(data, similarity_groups)`: per group,
map every non-parent candidate to the chosen parent (later groups overwrite
earlier entries for the same child). -/
def assignParentCifas (data : Table) (groups : List (Nat × List (Nat × ℚ))) :
    List (Nat × Nat) :=
  groups.foldl (fun m ag =>
    match chooseParent data ag.2 with
    | none => m
    | some parent =>
      ((sortedCandidates data ag.2).map Rec.cifa).foldl
        (fun m' c => if c ≠ parent.cifa then updAssoc m' c parent.cifa else m') m) []

/-- matching.py `apply_cross_references(data, parent_mapping)`:
`data['cross_reference'] = data['cifa_number'].map(parent_mapping)` — each
row's `cross_reference` becomes the mapped parent, or NaN when its
`cifa_number` is not a key of the mapping. -/
def applyCrossReferences (data : Table) (mapping : List (Nat × Nat)) : Table :=
  { data with
    rows := data.rows.map (fun r =>
      { r with cross_reference := (mapping.find? (fun p => decide (p.1 = r.cifa))).map Prod.snd }) }

/-- A row of the small list consumed by the catalog-matching routines. -/
structure SRow where
  mfg_part_number : Cell
  item_description : Cell
  deriving DecidableEq, Inhabited, Repr

/-- A master-catalog row. -/
structure CRow where
  mfg_part_number : Cell
  cifa_number : Nat
  item_description : Cell
  deriving DecidableEq, Inhabited, Repr

/-- A match-result row. -/
structure MRow where
  input_part_number : Cell
  matched_part_number : Str
  cifa_number : Nat
  similarity_score : ℚ
  deriving DecidableEq, Inhabited, Repr

/-- matching.py `fuzzy_match_with_scores(small_list, master_catalog,
threshold=90)`: token-sort extract with cutoff and limit 5, skipping matches
whose catalog description already appears among the small list's
descriptions (`set_index('mfg_part_number')['item_description'].to_dict()`,
later rows overwriting earlier ones with the same part number). -/
def fuzzyMatchWithScores (small : List SRow) (catalog : List CRow) (t : ℚ) :
    List MRow :=
  let descs :=
    (small.foldl (fun m r => updAssoc m r.mfg_part_number r.item_description) []).map
      Prod.snd
  small.flatMap (fun r =>
    (extractTop tokenSortSim r.mfg_part_number
        (catalog.map (fun c => c.mfg_part_number)) (some t) 5).filterMap
      (fun m =>
        let c := catalog.getD m.2.2 default
        if c.item_description ∈ descs then none
        else some ⟨r.mfg_part_number, m.1, c.cifa_number, m.2.1⟩))

/-- matching.py `process_chunk(chunk, catalog, threshold=90)`: token-sort
extract with cutoff and limit 5; every match is kept. -/
def processChunk (chunk : List SRow) (catalog : List CRow) (t : ℚ) : List MRow :=
  chunk.flatMap (fun r =>
    (extractTop tokenSortSim r.mfg_part_number
        (catalog.map (fun c => c.mfg_part_number)) (some t) 5).map
      (fun m => ⟨r.mfg_part_number, m.1, (catalog.getD m.2.2 default).cifa_number, m.2.1⟩))

/-! ### parallel.py -/

/-- `np.array_split(l, n)`: `n` contiguous chunks; with `l.length = q*n + r`
the first `r` chunks have `q+1` elements and the rest have `q`. -/
def arraySplit {α : Type} (l : List α) : Nat → List (List α)
  | 0 => []
  | n + 1 =>
    l.take ((l.length + n) / (n + 1)) ::
      arraySplit (l.drop ((l.length + n) / (n + 1))) n

/-- parallel.py `parallel_match(small_list, catalog, num_chunks=4)`: split the
small list into `n` chunks, run `process_chunk` (at its default threshold 90)
on each, and concatenate the results in chunk-submission order. -/
def parallelMatch (small : List SRow) (catalog : List CRow) (n : Nat) : List MRow :=
  ((arraySplit small n).map (fun c => processChunk c catalog 90)).flatten

/-- parallel.py line 72: the blocking key — first 3 characters of
`mfg_part_number` (NaN stays NaN). -/
def blockKey (r : Rec) : Cell :=
  (r.get "mfg_part_number").map (fun s => s.take 3)

/-- parallel.py line 72: `data['prefix_group'] = data['mfg_part_number'].str[:3]`. -/
def addBlockCol (T : Table) : Table :=
  { cols := if "prefix_group" ∈ T.cols then T.cols else T.cols ++ ["prefix_group"],
    rows := T.rows.map (fun r => r.setAttr "prefix_group" (blockKey r)) }

/-- The blocking key column of an augmented row. -/
def keyOf (r : Rec) : Cell :=
  r.get "prefix_group"

/-- The distinct defined blocking keys, in ascending order (pandas `groupby`
sorts group keys and drops NaN keys). -/
def blockKeys (T : Table) : List Str :=
  sortStrAsc (T.rows.filterMap keyOf).dedup

/-- parallel.py line 75: `[group for _, group in data.groupby('prefix_group')]` —
one block per defined key, rows in table order; NaN-keyed rows appear in no
block. -/
def blockPartition (T : Table) : List (List Rec) :=
  (blockKeys T).map (fun k => T.rows.filter (fun r => decide (keyOf r = some k)))

/-- parallel.py `parallel_grouping(data, key_columns, threshold=90,
num_processes=4)`: add the blocking column, partition into blocks, run
`compare_group(block, data, ...)` per block, and flatten the per-block
results in block order. -/
def parallelGrouping (data : Table) (keyCols : List String) (t : ℚ) :
    List (Nat × List (Nat × ℚ)) :=
  if "mfg_part_number" ∈ data.cols then
    let d := addBlockCol data
    ((blockPartition d).map (fun b => compareGroup ⟨d.cols, b⟩ d keyCols t)).flatten
  else []

/-! ### Concrete tables used to witness and refute the claims -/

/-- Two records whose key column holds `"a"` and `"a b"`: a token-set match
at 100 but a token-sort match at 50. -/
def W1 : Table :=
  ⟨["cifa_number", "k"],
   [⟨1, none, none, 0, [("k", some (str "a"))]⟩,
    ⟨2, none, none, 0, [("k", some (str "a b"))]⟩]⟩

/-- Two records in different prefix blocks (`AAA` vs `BBB`) with identical
description column `d`. -/
def W2 : Table :=
  ⟨["mfg_part_number", "d"],
   [⟨1, none, none, 0, [("mfg_part_number", some (str "AAAx")), ("d", some (str "w"))]⟩,
    ⟨2, none, none, 0, [("mfg_part_number", some (str "BBBx")), ("d", some (str "w"))]⟩]⟩

/-- Two records with an empty part number and one with a missing part
number. -/
def W3 : Table :=
  ⟨["mfg_part_number"],
   [⟨1, none, none, 0, [("mfg_part_number", some (str ""))]⟩,
    ⟨2, none, none, 0, [("mfg_part_number", some (str ""))]⟩,
    ⟨3, none, none, 0, [("mfg_part_number", none)]⟩]⟩

/-- One record that already carries a cross reference. -/
def W4 : Table :=
  ⟨["cifa_number", "cross_reference"], [⟨1, some 5, none, 0, []⟩]⟩

/-- A one-part small list whose description also appears in the catalog. -/
def smallW : List SRow := [⟨some (str "ABC"), some (str "widget")⟩]

/-- A catalog entry matching `smallW` on the part number and sharing its
description. -/
def catW : List CRow := [⟨some (str "ABC"), 7, some (str "widget")⟩]

/-- A catalog entry matching `smallW` on the part number with a fresh
description. -/
def catW2 : List CRow := [⟨some (str "ABC"), 7, some (str "gadget")⟩]

/-! ## Infrastructure lemmas -/

theorem insertStable_perm {α : Type} (before : α → α → Bool) (x : α) (l : List α) :
    (insertStable before x l).Perm (x :: l) := by
  induction l with
  | nil => simp [insertStable]
  | cons y ys ih =>
    simp only [insertStable]
    by_cases h : before y x = true
    · simp only [h, if_true]
      exact ((ih.cons y).trans (List.Perm.swap x y ys))
    · simp [h]

theorem sortStable_perm {α : Type} (before : α → α → Bool) (l : List α) :
    (sortStable before l).Perm l := by
  induction l with
  | nil => simp [sortStable]
  | cons x xs ih =>
    exact (insertStable_perm before x (sortStable before xs)).trans (ih.cons x)

theorem mem_sortStable {α : Type} {before : α → α → Bool} {l : List α} {a : α} :
    a ∈ sortStable before l ↔ a ∈ l :=
  (sortStable_perm before l).mem_iff

theorem mem_insertStable {α : Type} {before : α → α → Bool} {x : α} {l : List α} {a : α} :
    a ∈ insertStable before x l ↔ a ∈ x :: l :=
  (insertStable_perm before x l).mem_iff

/-- The normalized similarity built by the scorers: `mkRat (100*(d-n)) d`
is the exact rational value of `100 - 100 * n / d`. -/
theorem mkRat_hundred_eq (n d : ℕ) (hn : n ≤ d) (hd : d ≠ 0) :
    (mkRat (↑(100 * (d - n))) d : ℚ) = 100 - 100 * (n : ℚ) / (d : ℚ) := by
  rw [Rat.mkRat_eq_div]
  have hdq : (d : ℚ) ≠ 0 := Nat.cast_ne_zero.mpr hd
  push_cast [Nat.cast_sub hn]
  field_simp
  ring

/-- A score numerator is never negative. -/
theorem mkRat_nat_nonneg (x d : ℕ) : 0 ≤ (mkRat (↑x) d : ℚ) := by
  rw [Rat.mkRat_eq_div]
  positivity

/-- A score numerator bounded by `100 * den` keeps the score at or below 100. -/
theorem mkRat_nat_le_hundred (x d : ℕ) (h : x ≤ 100 * d) : (mkRat (↑x) d : ℚ) ≤ 100 := by
  rw [Rat.mkRat_eq_div]
  rcases Nat.eq_zero_or_pos d with hd | hd
  · subst hd; norm_num
  · have hdq : (0 : ℚ) < d := by exact_mod_cast hd
    rw [div_le_iff₀ hdq]
    exact_mod_cast h

theorem indelSim_bounds (a b : Str) : 0 ≤ indelSim a b ∧ indelSim a b ≤ 100 := by
  unfold indelSim
  dsimp only
  split_ifs with h
  · norm_num
  · exact ⟨mkRat_nat_nonneg _ _,
      mkRat_nat_le_hundred _ _ (Nat.mul_le_mul_left 100 (Nat.sub_le _ _))⟩

theorem tokenSortSim_bounds (a b : Str) : 0 ≤ tokenSortSim a b ∧ tokenSortSim a b ≤ 100 :=
  indelSim_bounds _ _

theorem tokenSetSim_bounds (a b : Str) : 0 ≤ tokenSetSim a b ∧ tokenSetSim a b ≤ 100 := by
  unfold tokenSetSim
  dsimp only
  split_ifs with h0 h1 hsect
  · norm_num
  · norm_num
  all_goals
    refine ⟨le_trans (indelSim_bounds _ _).1 (le_max_left _ _),
      max_le (indelSim_bounds _ _).2 (max_le ?_ ?_)⟩ <;>
      exact mkRat_nat_le_hundred _ _ (Nat.mul_le_mul_left 100 (Nat.sub_le _ _))

theorem mem_sortDescByQ {α : Type} {key : α → ℚ} {l : List α} {a : α} :
    a ∈ sortDescByQ key l ↔ a ∈ l :=
  mem_sortStable

theorem mem_scoredChoices {scorer : Str → Str → ℚ} {q : Str} {choices : List Cell}
    {m : Str × ℚ × Nat} (hm : m ∈ scoredChoices scorer q choices) :
    m.2.1 = scorer q m.1 ∧ m.2.2 < choices.length ∧ choices.getD m.2.2 none = some m.1 := by
  unfold scoredChoices at hm
  rcases List.mem_filterMap.mp hm with ⟨p, hp, hpm⟩
  rcases p with ⟨i, oc⟩
  cases oc with
  | none => simp at hpm
  | some c =>
    simp only [Option.map_some'] at hpm
    rcases List.mem_enum hp with ⟨hi, hc⟩
    have hpm' := Option.some.inj hpm
    subst hpm'
    refine ⟨rfl, hi, ?_⟩
    rw [List.getD_eq_getElem?_getD, List.getElem?_eq_getElem hi, ← hc]
    rfl

theorem mem_extractTop {scorer : Str → Str → ℚ} {q : Cell} {choices : List Cell}
    {cutoff : Option ℚ} {limit : Nat} {m : Str × ℚ × Nat}
    (hm : m ∈ extractTop scorer q choices cutoff limit) :
    ∃ qs, q = some qs ∧ m.2.1 = scorer qs m.1 ∧ m.2.2 < choices.length ∧
      choices.getD m.2.2 none = some m.1 ∧ ∀ t, cutoff = some t → t ≤ m.2.1 := by
  cases q with
  | none => simp [extractTop] at hm
  | some qs =>
    unfold extractTop at hm
    dsimp only at hm
    have hm' := mem_sortDescByQ.mp (List.mem_of_mem_take hm)
    cases cutoff with
    | none =>
      have hs := mem_scoredChoices hm'
      exact ⟨qs, rfl, hs.1, hs.2.1, hs.2.2, by intro t ht; cases ht⟩
    | some t =>
      rcases List.mem_filter.mp hm' with ⟨hsc, hcut⟩
      have hs := mem_scoredChoices hsc
      refine ⟨qs, rfl, hs.1, hs.2.1, hs.2.2, ?_⟩
      intro u hu
      cases hu
      exact of_decide_eq_true hcut

theorem mem_rowMatches_bounds {scorer : Str → Str → ℚ} {limit : Nat}
    {anchorCols : List String} {pool : List Rec} {keyCols : List String} {t : ℚ}
    {row : Rec} {p : Nat × ℚ}
    (hb : ∀ a b, 0 ≤ scorer a b ∧ scorer a b ≤ 100)
    (hp : p ∈ rowMatches scorer limit anchorCols pool keyCols t row) :
    t ≤ p.2 ∧ 0 ≤ p.2 ∧ p.2 ≤ 100 := by
  unfold rowMatches at hp
  rcases List.mem_flatMap.mp hp with ⟨kc, _, hkc⟩
  by_cases hin : kc ∈ anchorCols
  · rw [if_pos hin] at hkc
    rcases List.mem_filterMap.mp hkc with ⟨m, hme, hmp⟩
    by_cases hth : t ≤ m.2.1
    · rw [if_pos hth] at hmp
      rcases mem_extractTop hme with ⟨qs, _, hsc, _, _, _⟩
      cases hmp
      refine ⟨hth, ?_, ?_⟩
      · rw [hsc]; exact (hb qs m.1).1
      · rw [hsc]; exact (hb qs m.1).2
    · rw [if_neg hth] at hmp
      cases hmp
  · rw [if_neg hin] at hkc
    cases hkc

theorem mem_rowMatches_pool {scorer : Str → Str → ℚ} {limit : Nat}
    {anchorCols : List String} {pool : List Rec} {keyCols : List String} {t : ℚ}
    {row : Rec} {p : Nat × ℚ}
    (hp : p ∈ rowMatches scorer limit anchorCols pool keyCols t row) :
    ∃ r ∈ pool, r.cifa = p.1 := by
  unfold rowMatches at hp
  rcases List.mem_flatMap.mp hp with ⟨kc, _, hkc⟩
  by_cases hin : kc ∈ anchorCols
  · rw [if_pos hin] at hkc
    rcases List.mem_filterMap.mp hkc with ⟨m, hme, hmp⟩
    by_cases hth : t ≤ m.2.1
    · rw [if_pos hth] at hmp
      rcases mem_extractTop hme with ⟨qs, _, _, hlen, _, _⟩
      rw [List.length_map] at hlen
      cases hmp
      refine ⟨pool.getD m.2.2 default, ?_, rfl⟩
      rw [List.getD_eq_getElem?_getD, List.getElem?_eq_getElem hlen]
      exact List.getElem_mem hlen
    · rw [if_neg hth] at hmp
      cases hmp
  · rw [if_neg hin] at hkc
    cases hkc

theorem mem_updAssoc_iff {α β : Type} [DecidableEq α] {m : List (α × β)} {k k' : α}
    {v v' : β} :
    (k', v') ∈ updAssoc m k v ↔ ((k' = k ∧ v' = v) ∨ (k' ≠ k ∧ (k', v') ∈ m)) := by
  unfold updAssoc
  by_cases hany : m.any (fun p => decide (p.1 = k)) = true
  · rw [if_pos hany]
    constructor
    · intro hmem
      rcases List.mem_map.mp hmem with ⟨p, hp, heq⟩
      by_cases hpk : p.1 = k
      · rw [if_pos hpk] at heq
        left
        exact ⟨(Prod.mk.injEq _ _ _ _ ▸ heq.symm).1.symm ▸ rfl, ((Prod.mk.injEq _ _ _ _).mp heq).2.symm ▸ rfl⟩
      · rw [if_neg hpk] at heq
        right
        subst heq
        exact ⟨hpk, hp⟩
    · intro h
      rcases h with ⟨hk, hv⟩ | ⟨hk, hmem⟩
      · subst hk; subst hv
        rcases List.any_eq_true.mp hany with ⟨p, hp, hpk⟩
        have hpk' := of_decide_eq_true hpk
        exact List.mem_map.mpr ⟨p, hp, by rw [if_pos hpk']⟩
      · exact List.mem_map.mpr ⟨(k', v'), hmem, by rw [if_neg hk]⟩
  · rw [if_neg hany]
    have hno : ∀ p ∈ m, p.1 ≠ k := by
      intro p hp hpk
      exact hany (List.any_eq_true.mpr ⟨p, hp, decide_eq_true hpk⟩)
    constructor
    · intro hmem
      rcases List.mem_append.mp hmem with hmem | hmem
      · exact Or.inr ⟨hno _ hmem, hmem⟩
      · rcases List.mem_singleton.mp hmem with heq
        exact Or.inl ⟨((Prod.mk.injEq _ _ _ _).mp heq).1, ((Prod.mk.injEq _ _ _ _).mp heq).2⟩
    · intro h
      rcases h with ⟨hk, hv⟩ | ⟨hk, hmem⟩
      · subst hk; subst hv
        exact List.mem_append.mpr (Or.inr (List.mem_singleton.mpr rfl))
      · exact List.mem_append.mpr (Or.inl hmem)

theorem nodup_keys_updAssoc {α β : Type} [DecidableEq α] {m : List (α × β)} {k : α}
    {v : β} (h : (m.map Prod.fst).Nodup) : ((updAssoc m k v).map Prod.fst).Nodup := by
  unfold updAssoc
  by_cases hany : m.any (fun p => decide (p.1 = k)) = true
  · rw [if_pos hany, List.map_map]
    have : (Prod.fst ∘ fun p : α × β => if p.1 = k then (k, v) else p) = Prod.fst := by
      funext p
      by_cases hpk : p.1 = k <;> simp [hpk]
    rw [this]
    exact h
  · rw [if_neg hany, List.map_append]
    simp only [List.map_cons, List.map_nil]
    rw [List.nodup_append]
    refine ⟨h, List.nodup_singleton k, ?_⟩
    intro a ha hb
    rcases List.mem_singleton.mp hb with rfl
    rcases List.mem_map.mp ha with ⟨p, hp, hpk⟩
    exact hany (List.any_eq_true.mpr ⟨p, hp, decide_eq_true hpk⟩)

theorem getAssoc_cons_pos {α β : Type} [DecidableEq α] {p : α × β} {rest : List (α × β)}
    {k : α} {d : β} (h : p.1 = k) : getAssoc (p :: rest) k d = p.2 := by
  unfold getAssoc
  have hf : List.find? (fun q => decide (q.1 = k)) (p :: rest) = some p :=
    List.find?_cons_of_pos rest (decide_eq_true h)
  rw [hf]

theorem getAssoc_cons_neg {α β : Type} [DecidableEq α] {p : α × β} {rest : List (α × β)}
    {k : α} {d : β} (h : ¬ p.1 = k) : getAssoc (p :: rest) k d = getAssoc rest k d := by
  unfold getAssoc
  have hf : List.find? (fun q => decide (q.1 = k)) (p :: rest) =
      List.find? (fun q => decide (q.1 = k)) rest :=
    List.find?_cons_of_neg rest (by simpa using h)
  rw [hf]

theorem getAssoc_eq_of_mem {α β : Type} [DecidableEq α] {m : List (α × β)} {k : α}
    {v : β} (d : β) (hn : (m.map Prod.fst).Nodup) (hm : (k, v) ∈ m) :
    getAssoc m k d = v := by
  induction m with
  | nil => cases hm
  | cons p rest ih =>
    simp only [List.map_cons, List.nodup_cons] at hn
    by_cases hpk : p.1 = k
    · rw [getAssoc_cons_pos hpk]
      rcases List.mem_cons.mp hm with heq | hmem
      · rw [← heq]
      · exact absurd (List.mem_map.mpr ⟨(k, v), hmem, rfl⟩) (hpk ▸ hn.1)
    · rw [getAssoc_cons_neg hpk]
      rcases List.mem_cons.mp hm with heq | hmem
      · exact absurd (congrArg Prod.fst heq).symm hpk
      · exact ih hn.2 hmem

theorem getAssoc_mem_or {α β : Type} [DecidableEq α] (m : List (α × β)) (k : α) (d : β) :
    getAssoc m k d = d ∨ (k, getAssoc m k d) ∈ m := by
  induction m with
  | nil => exact Or.inl rfl
  | cons p rest ih =>
    by_cases hpk : p.1 = k
    · rw [getAssoc_cons_pos hpk]
      right
      exact List.mem_cons.mpr (Or.inl (by rw [← hpk]))
    · rw [getAssoc_cons_neg hpk]
      rcases ih with h | h
      · exact Or.inl h
      · exact Or.inr (List.mem_cons.mpr (Or.inr h))

theorem dedupMax_fold_inv (rest : List (Nat × ℚ)) :
    ∀ (acc done : List (Nat × ℚ)),
    (∀ p ∈ rest, 0 ≤ p.2) →
    ((acc.map Prod.fst).Nodup) →
    (∀ p ∈ acc, p ∈ done ∧ ∀ s, (p.1, s) ∈ done → s ≤ p.2) →
    (∀ p ∈ done, ∃ v, (p.1, v) ∈ acc) →
    (((rest.foldl (fun m q => updAssoc m q.1 (max q.2 (getAssoc m q.1 0))) acc).map
        Prod.fst).Nodup) ∧
    (∀ p ∈ rest.foldl (fun m q => updAssoc m q.1 (max q.2 (getAssoc m q.1 0))) acc,
        p ∈ done ++ rest ∧ ∀ s, (p.1, s) ∈ done ++ rest → s ≤ p.2) ∧
    (∀ p ∈ done ++ rest, ∃ v,
        (p.1, v) ∈ rest.foldl (fun m q => updAssoc m q.1 (max q.2 (getAssoc m q.1 0))) acc) := by
  induction rest with
  | nil =>
    intro acc done _ hnd hmem hkeys
    simp only [List.foldl_nil, List.append_nil]
    exact ⟨hnd, hmem, hkeys⟩
  | cons q rest ih =>
    intro acc done hnn hnd hmem hkeys
    have hq0 : (0 : ℚ) ≤ q.2 := hnn q (List.mem_cons_self q rest)
    simp only [List.foldl_cons]
    have hstep := ih (updAssoc acc q.1 (max q.2 (getAssoc acc q.1 0))) (done ++ [q])
      (fun p hp => hnn p (List.mem_cons_of_mem q hp))
      (nodup_keys_updAssoc hnd)
      ?_ ?_
    · refine ⟨hstep.1, ?_, ?_⟩
      · intro p hp
        have h := hstep.2.1 p hp
        constructor
        · have := h.1
          simpa [List.append_assoc] using this
        · intro s hs
          exact h.2 s (by simpa [List.append_assoc] using hs)
      · intro p hp
        exact hstep.2.2 p (by simpa [List.append_assoc] using hp)
    · -- the updated accumulator entries are witnessed in `done ++ [q]` and maximal there
      intro p hp
      rcases mem_updAssoc_iff.mp hp with ⟨hk, hv⟩ | ⟨hk, hp'⟩
      · constructor
        · rcases max_choice q.2 (getAssoc acc q.1 0) with hmx | hmx
          · refine List.mem_append.mpr (Or.inr (List.mem_singleton.mpr ?_))
            have : p = (q.1, q.2) := by
              rcases p with ⟨p1, p2⟩
              simp only at hk hv
              rw [hk, hv, hmx]
            rw [this]
          · rcases getAssoc_mem_or acc q.1 0 with hg | hg
            · have hv' : p.2 = q.2 := by
                rw [hv, hmx, hg]
                rw [hg] at hmx
                have := le_max_left q.2 (0 : ℚ)
                rw [hmx] at this
                exact le_antisymm hq0 this
              refine List.mem_append.mpr (Or.inr (List.mem_singleton.mpr ?_))
              rcases p with ⟨p1, p2⟩
              simp only at hk hv'
              rw [hk, hv']
            · have hpg : p = (q.1, getAssoc acc q.1 0) := by
                rcases p with ⟨p1, p2⟩
                simp only at hk hv
                rw [hk, hv, hmx]
              exact List.mem_append.mpr (Or.inl ((hpg ▸ hmem _ hg).1))
        · intro s hs
          rcases List.mem_append.mp hs with hs | hs
          · -- an earlier value for the same key is known to the accumulator
            rcases hkeys (p.1, s) hs with ⟨w, hw⟩
            rw [hk] at hw
            have hwv := getAssoc_eq_of_mem (0 : ℚ) hnd hw
            have hsw : s ≤ w := (hmem _ hw).2 s (by rw [hk] at hs; exact hs)
            calc s ≤ w := hsw
              _ = getAssoc acc q.1 0 := hwv.symm
              _ ≤ max q.2 (getAssoc acc q.1 0) := le_max_right _ _
              _ = p.2 := hv.symm
          · rcases List.mem_singleton.mp hs with heq
            have : s = q.2 := ((Prod.mk.injEq _ _ _ _).mp heq).2
            rw [this, hv]
            exact le_max_left _ _
      · rcases hmem p hp' with ⟨hpd, hps⟩
        refine ⟨List.mem_append.mpr (Or.inl hpd), ?_⟩
        intro s hs
        rcases List.mem_append.mp hs with hs | hs
        · exact hps s hs
        · rcases List.mem_singleton.mp hs with heq
          exact absurd ((Prod.mk.injEq _ _ _ _).mp heq).1 hk
    · intro p hp
      rcases List.mem_append.mp hp with hp | hp
      · rcases hkeys p hp with ⟨v, hv⟩
        by_cases hpq : p.1 = q.1
        · exact ⟨max q.2 (getAssoc acc q.1 0),
            mem_updAssoc_iff.mpr (Or.inl ⟨hpq, rfl⟩)⟩
        · exact ⟨v, mem_updAssoc_iff.mpr (Or.inr ⟨hpq, hv⟩)⟩
      · have hpq : p = q := List.mem_singleton.mp hp
        subst hpq
        exact ⟨max p.2 (getAssoc acc p.1 0), mem_updAssoc_iff.mpr (Or.inl ⟨rfl, rfl⟩)⟩

/-- Characterization of the dict-based deduplication of matching.py lines
49-53: candidate keys are unique, every surviving pair occurred in the input,
its score dominates every score recorded for that key, and every input key
survives. -/
theorem dedupMax_spec (ms : List (Nat × ℚ)) (h0 : ∀ p ∈ ms, 0 ≤ p.2) :
    ((dedupMax ms).map Prod.fst).Nodup ∧
    (∀ p ∈ dedupMax ms, p ∈ ms ∧ ∀ s, (p.1, s) ∈ ms → s ≤ p.2) ∧
    (∀ p ∈ ms, ∃ v, (p.1, v) ∈ dedupMax ms) := by
  have h := dedupMax_fold_inv ms [] [] h0 (by simp) (by simp) (by simp)
  simpa [dedupMax] using h

theorem mem_groupSimilarRecords {data : Table} {keyCols : List String} {t : ℚ}
    {ag : Nat × List (Nat × ℚ)} (h : ag ∈ groupSimilarRecords data keyCols t) :
    ∃ row ∈ data.rows,
      ag = (row.cifa, dedupMax (rowMatches tokenSetSim 10 data.cols data.rows keyCols t row)) := by
  rcases List.mem_map.mp h with ⟨row, hrow, heq⟩
  exact ⟨row, hrow, heq.symm⟩

theorem mem_compareGroup {grp data : Table} {keyCols : List String} {t : ℚ}
    {ag : Nat × List (Nat × ℚ)} (h : ag ∈ compareGroup grp data keyCols t) :
    ∃ row ∈ grp.rows,
      ag = (row.cifa, dedupMax (rowMatches tokenSortSim 5 grp.cols data.rows keyCols t row)) := by
  rcases List.mem_map.mp h with ⟨row, hrow, heq⟩
  exact ⟨row, hrow, heq.symm⟩

/-! ## Claim theorems -/

/-- Claim C8 (confirmed): every (candidate id, score) pair contained in any
similarity group emitted by the Group Builder — the sequential
`group_similar_records` as well as the per-block `compare_group` — has a
score at least the configured threshold, and every score lies in [0, 100]. -/
theorem C8_scores_meet_threshold_and_bounds (grp data : Table)
    (keyCols : List String) (t : ℚ) (ag : Nat × List (Nat × ℚ)) (cs : Nat × ℚ)
    (hg : ag ∈ groupSimilarRecords data keyCols t ∨ ag ∈ compareGroup grp data keyCols t)
    (hc : cs ∈ ag.2) :
    t ≤ cs.2 ∧ 0 ≤ cs.2 ∧ cs.2 ≤ 100 := by
  rcases hg with hg | hg
  · rcases mem_groupSimilarRecords hg with ⟨row, hrow, heq⟩
    subst heq
    simp only at hc
    have hnn : ∀ p ∈ rowMatches tokenSetSim 10 data.cols data.rows keyCols t row,
        0 ≤ p.2 := fun p hp => (mem_rowMatches_bounds tokenSetSim_bounds hp).2.1
    have hms := (dedupMax_spec _ hnn).2.1 cs hc
    exact mem_rowMatches_bounds tokenSetSim_bounds hms.1
  · rcases mem_compareGroup hg with ⟨row, hrow, heq⟩
    subst heq
    simp only at hc
    have hnn : ∀ p ∈ rowMatches tokenSortSim 5 grp.cols data.rows keyCols t row,
        0 ≤ p.2 := fun p hp => (mem_rowMatches_bounds tokenSortSim_bounds hp).2.1
    have hms := (dedupMax_spec _ hnn).2.1 cs hc
    exact mem_rowMatches_bounds tokenSortSim_bounds hms.1

theorem C8_witness : (90 : ℚ) ≤ 100 ∧ (0 : ℚ) ≤ 100 ∧ (100 : ℚ) ≤ 100 :=
  C8_scores_meet_threshold_and_bounds W1 W1 ["k"] 90 (1, [(1, 100), (2, 100)]) (1, 100)
    (Or.inl (by decide)) (by decide)

/-- Claim C9 (confirmed): each similarity group emitted by
`group_similar_records` carries at most one entry per candidate id, every
surviving (id, score) pair occurred among the per-attribute matches, its
score dominates every per-attribute score recorded for that id, and every
matched id survives deduplication. -/
theorem C9_dedup_keeps_max_per_candidate (data : Table) (keyCols : List String)
    (t : ℚ) (row : Rec) (hrow : row ∈ data.rows) :
    (row.cifa, dedupMax (rowMatches tokenSetSim 10 data.cols data.rows keyCols t row))
        ∈ groupSimilarRecords data keyCols t ∧
    ((dedupMax (rowMatches tokenSetSim 10 data.cols data.rows keyCols t row)).map
        Prod.fst).Nodup ∧
    (∀ p ∈ dedupMax (rowMatches tokenSetSim 10 data.cols data.rows keyCols t row),
        p ∈ rowMatches tokenSetSim 10 data.cols data.rows keyCols t row ∧
        ∀ s, (p.1, s) ∈ rowMatches tokenSetSim 10 data.cols data.rows keyCols t row →
          s ≤ p.2) ∧
    (∀ p ∈ rowMatches tokenSetSim 10 data.cols data.rows keyCols t row,
        ∃ v, (p.1, v) ∈
          dedupMax (rowMatches tokenSetSim 10 data.cols data.rows keyCols t row)) := by
  have hnn : ∀ p ∈ rowMatches tokenSetSim 10 data.cols data.rows keyCols t row,
      0 ≤ p.2 := fun p hp => (mem_rowMatches_bounds tokenSetSim_bounds hp).2.1
  have hs := dedupMax_spec _ hnn
  exact ⟨List.mem_map.mpr ⟨row, hrow, rfl⟩, hs.1, hs.2.1, hs.2.2⟩

theorem C9_witness :
    ((dedupMax (rowMatches tokenSetSim 10 W1.cols W1.rows ["k"] 90
        ⟨1, none, none, 0, [("k", some (str "a"))]⟩)).map Prod.fst).Nodup :=
  (C9_dedup_keeps_max_per_candidate W1 ["k"] 90
    ⟨1, none, none, 0, [("k", some (str "a"))]⟩ (by decide)).2.1

/-- Claim C4 counterexample: on the same two-record input with the whole set
as the single candidate pool and threshold 90, the sequential Group Builder
(token-set scorer, shortlist 10) and the per-block routine (token-sort
scorer, shortlist 5) emit different triples: the sequential run pairs the two
records at score 100, the per-block routine only ever matches each record to
itself. -/
theorem C4_counterexample :
    groupSimilarRecords W1 ["k"] 90 =
        [(1, [(1, 100), (2, 100)]), (2, [(1, 100), (2, 100)])] ∧
    compareGroup W1 W1 ["k"] 90 = [(1, [(1, 100)]), (2, [(2, 100)])] ∧
    groupSimilarRecords W1 ["k"] 90 ≠ compareGroup W1 W1 ["k"] 90 := by
  decide

/-- Claim C4 (corrected): the two routines implement one common contract with
the similarity variant and shortlist size as parameters, but they are
instantiated differently — `group_similar_records` uses the token-set scorer
with a top-10 shortlist, while `compare_group` uses the token-sort scorer
with a top-5 shortlist — so equal inputs need not produce equal triples. -/
theorem C4_amended (grp data : Table) (keyCols : List String) (t : ℚ) :
    groupSimilarRecords data keyCols t = buildGroups tokenSetSim 10 data data keyCols t ∧
    compareGroup grp data keyCols t = buildGroups tokenSortSim 5 grp data keyCols t :=
  ⟨rfl, rfl⟩

theorem mem_addBlockCol {T : Table} {r : Rec} (h : r ∈ (addBlockCol T).rows) :
    ∃ r0 ∈ T.rows, r = r0.setAttr "prefix_group" (blockKey r0) := by
  rcases List.mem_map.mp h with ⟨r0, hr0, heq⟩
  exact ⟨r0, hr0, heq.symm⟩

/-- Claim C2 counterexample: two records with blocking keys `AAA` and `BBB`
form two singleton blocks, yet each block's run emits the other block's
record as a candidate (both descriptions are `w`): the pair (2, 100) is
emitted for anchor 1 although record 2 lies in a different block. -/
theorem C2_counterexample :
    (blockPartition (addBlockCol W2)).map (fun b => b.map Rec.cifa) = [[1], [2]] ∧
    parallelGrouping W2 ["d"] 90 =
      [(1, [(1, 100), (2, 100)]), (2, [(1, 100), (2, 100)])] := by
  decide

/-- Claim C2 (corrected): in sharded-grouping mode each block's run anchors
exactly the records of its block (in block order), but the candidate pool is
the full record set, so an emitted (candidate id, score) pair may refer to a
record of any block; every candidate id resolves to a record of the full
input set. -/
theorem C2_amended (data : Table) (keyCols : List String) (t : ℚ)
    (hcol : "mfg_part_number" ∈ data.cols) :
    (parallelGrouping data keyCols t).map Prod.fst =
      ((blockPartition (addBlockCol data)).flatten).map Rec.cifa ∧
    ∀ ag ∈ parallelGrouping data keyCols t, ∀ cs ∈ ag.2,
      ∃ r ∈ data.rows, r.cifa = cs.1 := by
  constructor
  · unfold parallelGrouping
    rw [if_pos hcol]
    dsimp only
    rw [List.map_flatten, List.map_flatten, List.map_map]
    congr 1
    apply List.map_congr_left
    intro b _
    unfold compareGroup
    simp [List.map_map]
  · intro ag hag cs hcs
    unfold parallelGrouping at hag
    rw [if_pos hcol] at hag
    dsimp only at hag
    rcases List.mem_flatten.mp hag with ⟨bl, hbl, hagbl⟩
    rcases List.mem_map.mp hbl with ⟨b, _, hbeq⟩
    subst hbeq
    rcases mem_compareGroup hagbl with ⟨row, _, heq⟩
    subst heq
    simp only at hcs
    have hnn : ∀ p ∈ rowMatches tokenSortSim 5 (Table.mk (addBlockCol data).cols b).cols
        (addBlockCol data).rows keyCols t row, 0 ≤ p.2 :=
      fun p hp => (mem_rowMatches_bounds tokenSortSim_bounds hp).2.1
    have hms := (dedupMax_spec _ hnn).2.1 cs hcs
    rcases mem_rowMatches_pool hms.1 with ⟨r, hr, hrc⟩
    rcases mem_addBlockCol hr with ⟨r0, hr0, hreq⟩
    exact ⟨r0, hr0, by rw [← hrc, hreq]; rfl⟩

theorem C2_amended_witness :
    (parallelGrouping W2 ["d"] 90).map Prod.fst =
      ((blockPartition (addBlockCol W2)).flatten).map Rec.cifa :=
  (C2_amended W2 ["d"] 90 (by decide)).1

theorem arraySplit_flatten {α : Type} :
    ∀ (n : Nat) (l : List α), 0 < n → (arraySplit l n).flatten = l := by
  intro n
  induction n with
  | zero => intro l h; exact absurd h (lt_irrefl 0)
  | succ m ih =>
    intro l _
    cases m with
    | zero => simp [arraySplit]
    | succ k =>
      have hsplit : arraySplit l (k + 1 + 1) =
          l.take ((l.length + (k + 1)) / (k + 1 + 1)) ::
            arraySplit (l.drop ((l.length + (k + 1)) / (k + 1 + 1))) (k + 1) := rfl
      rw [hsplit, List.flatten_cons, ih _ (Nat.succ_pos k), List.take_append_drop]

theorem processChunk_flatten (chunks : List (List SRow)) (catalog : List CRow) (t : ℚ) :
    ((chunks.map (fun c => processChunk c catalog t)).flatten) =
      processChunk chunks.flatten catalog t := by
  induction chunks with
  | nil => simp [processChunk]
  | cons c cs ih =>
    simp only [List.map_cons, List.flatten_cons, List.flatten_cons, ih]
    unfold processChunk
    rw [List.flatMap_append]

/-- Claim C7 (confirmed): sharded matching returns the same row list — hence
the same multiset — for any positive worker count (in particular for 1 and
N workers), and the combined rows are exactly the per-shard results
concatenated in shard-submission order. -/
theorem C7_sharding_invariance (small : List SRow) (catalog : List CRow)
    (n : Nat) (hn : 0 < n) :
    parallelMatch small catalog n = parallelMatch small catalog 1 ∧
    parallelMatch small catalog n =
      ((arraySplit small n).map (fun c => processChunk c catalog 90)).flatten := by
  have key : ∀ m, 0 < m → parallelMatch small catalog m = processChunk small catalog 90 := by
    intro m hm
    unfold parallelMatch
    rw [processChunk_flatten, arraySplit_flatten m small hm]
  exact ⟨(key n hn).trans (key 1 Nat.one_pos).symm, rfl⟩

theorem C7_witness : parallelMatch smallW catW 4 = parallelMatch smallW catW 1 :=
  (C7_sharding_invariance smallW catW 4 (by decide)).1

/-- Claim C10 (confirmed): every row emitted by the sequential
`fuzzy_match_with_scores` is also emitted by the per-shard `process_chunk`
(the sequential routine only adds the description filter), and on a concrete
input whose catalog description already appears in the small list the
sequential routine returns nothing while sharded matching with a single
worker returns the match row. -/
theorem C10_description_filter_divergence :
    (∀ (small : List SRow) (catalog : List CRow) (t : ℚ) (r : MRow),
        r ∈ fuzzyMatchWithScores small catalog t → r ∈ processChunk small catalog t) ∧
    fuzzyMatchWithScores smallW catW 90 = [] ∧
    parallelMatch smallW catW 1 = [⟨some (str "ABC"), str "ABC", 7, 100⟩] := by
  refine ⟨?_, by decide, by decide⟩
  intro small catalog t r hr
  unfold fuzzyMatchWithScores at hr
  dsimp only at hr
  rcases List.mem_flatMap.mp hr with ⟨s, hs, hrm⟩
  rcases List.mem_filterMap.mp hrm with ⟨m, hm, hf⟩
  unfold processChunk
  refine List.mem_flatMap.mpr ⟨s, hs, ?_⟩
  split at hf
  · cases hf
  · exact List.mem_map.mpr ⟨m, hm, Option.some.inj hf⟩

theorem C10_witness :
    (⟨some (str "ABC"), str "ABC", 7, 100⟩ : MRow) ∈ processChunk smallW catW2 90 :=
  C10_description_filter_divergence.1 smallW catW2 90 _ (by decide)

theorem find?_eq_none_of_not_key {m : List (Nat × Nat)} {k : Nat}
    (h : k ∉ m.map Prod.fst) : m.find? (fun p => decide (p.1 = k)) = none := by
  rw [List.find?_eq_none]
  intro p hp
  simp only [decide_eq_true_eq]
  intro hpk
  exact h (List.mem_map.mpr ⟨p, hp, hpk⟩)

/-- Claim C1 counterexample: a record holding cross_reference 5 whose id is
absent from an empty mapping comes out of the Cross-Reference Applier with a
null cross_reference — the existing value is not preserved. -/
theorem C1_counterexample :
    (applyCrossReferences W4 []).rows.map Rec.cross_reference = [none] ∧
    W4.rows.map Rec.cross_reference = [some 5] := by
  decide

/-- Claim C1 (corrected): the Cross-Reference Applier rewrites the whole
cross_reference column — a record whose id is a key of the mapping receives
the mapped parent, and a record whose id is absent receives null, discarding
any previously held value; ids and all other record fields are unchanged, and
the mapping argument is not mutated (the embedding is a pure function of
it). -/
theorem C1_amended (data : Table) (mapping : List (Nat × Nat)) (i : Nat)
    (hi : i < data.rows.length) :
    (applyCrossReferences data mapping).cols = data.cols ∧
    (applyCrossReferences data mapping).rows.length = data.rows.length ∧
    ((applyCrossReferences data mapping).rows.getD i default).cifa =
      (data.rows.getD i default).cifa ∧
    ((applyCrossReferences data mapping).rows.getD i default).mapped_source =
      (data.rows.getD i default).mapped_source ∧
    ((applyCrossReferences data mapping).rows.getD i default).item_last_update =
      (data.rows.getD i default).item_last_update ∧
    ((applyCrossReferences data mapping).rows.getD i default).attrs =
      (data.rows.getD i default).attrs ∧
    ((applyCrossReferences data mapping).rows.getD i default).cross_reference =
      (mapping.find? (fun p => decide (p.1 = (data.rows.getD i default).cifa))).map
        Prod.snd ∧
    ((data.rows.getD i default).cifa ∉ mapping.map Prod.fst →
      ((applyCrossReferences data mapping).rows.getD i default).cross_reference = none) ∧
    ((data.rows.getD i default).cifa ∈ mapping.map Prod.fst →
      ∃ v, ((data.rows.getD i default).cifa, v) ∈ mapping ∧
        ((applyCrossReferences data mapping).rows.getD i default).cross_reference =
          some v) := by
  have hlen : i < (applyCrossReferences data mapping).rows.length := by
    unfold applyCrossReferences
    simpa using hi
  have hrow : (applyCrossReferences data mapping).rows.getD i default =
      { data.rows.getD i default with
        cross_reference :=
          (mapping.find?
            (fun p => decide (p.1 = (data.rows.getD i default).cifa))).map Prod.snd } := by
    unfold applyCrossReferences
    dsimp only
    rw [List.getD_eq_getElem?_getD, List.getD_eq_getElem?_getD,
      List.getElem?_eq_getElem (by simpa using hi), List.getElem?_eq_getElem hi,
      List.getElem_map]
    rfl
  refine ⟨rfl, by unfold applyCrossReferences; simp, ?_, ?_, ?_, ?_, ?_, ?_, ?_⟩
  · rw [hrow]
  · rw [hrow]
  · rw [hrow]
  · rw [hrow]
  · rw [hrow]
  · intro habs
    rw [hrow]
    simp only [find?_eq_none_of_not_key habs, Option.map_none']
  · intro hkey
    rcases List.mem_map.mp hkey with ⟨p, hp, hpk⟩
    cases hfind : mapping.find? (fun q => decide (q.1 = (data.rows.getD i default).cifa)) with
    | none =>
      have := List.find?_eq_none.mp hfind p hp
      simp only [decide_eq_true_eq] at this
      exact absurd hpk this
    | some q =>
      have hq1 : q.1 = (data.rows.getD i default).cifa := by
        have := List.find?_some hfind
        simpa using this
      refine ⟨q.2, ?_, ?_⟩
      · rw [← hq1]
        exact List.mem_of_find?_eq_some hfind
      · rw [hrow]
        simp only [hfind, Option.map_some']

theorem C1_amended_witness :
    ((applyCrossReferences W4 []).rows.getD 0 default).cross_reference =
      (([] : List (Nat × Nat)).find?
        (fun p => decide (p.1 = (W4.rows.getD 0 default).cifa))).map Prod.snd :=
  (C1_amended W4 [] 0 (by decide)).2.2.2.2.2.2.1

theorem foldl_preserve {α β : Type} (P : β → Prop) (f : β → α → β)
    (hf : ∀ b a, P b → P (f b a)) : ∀ (l : List α) (b : β), P b → P (l.foldl f b) := by
  intro l
  induction l with
  | nil => intro b hb; exact hb
  | cons a as ih => intro b hb; exact ih _ (hf b a hb)

/-- Claim C6 (confirmed): the ParentMapping produced by `assign_parent_cifas`
never contains a self-loop — every stored pair maps a child to a distinct
parent. -/
theorem C6_parent_mapping_no_self_loop (data : Table)
    (groups : List (Nat × List (Nat × ℚ))) (p : Nat × Nat)
    (hp : p ∈ assignParentCifas data groups) : p.1 ≠ p.2 := by
  have main : ∀ q ∈ assignParentCifas data groups, q.1 ≠ q.2 := by
    unfold assignParentCifas
    refine foldl_preserve (fun m => ∀ q ∈ m, q.1 ≠ q.2)
      (fun m ag =>
        match chooseParent data ag.2 with
        | none => m
        | some parent =>
          ((sortedCandidates data ag.2).map Rec.cifa).foldl
            (fun m' c => if c ≠ parent.cifa then updAssoc m' c parent.cifa else m') m)
      ?_ groups [] ?_
    · intro m ag hm
      cases hcp : chooseParent data ag.2 with
      | none => simpa [hcp] using hm
      | some parent =>
        simp only [hcp]
        refine foldl_preserve (fun m => ∀ q ∈ m, q.1 ≠ q.2)
          (fun m' c => if c ≠ parent.cifa then updAssoc m' c parent.cifa else m')
          ?_ _ m hm
        intro m' c hm'
        dsimp only
        by_cases hc : c ≠ parent.cifa
        · rw [if_pos hc]
          intro q hq
          rcases mem_updAssoc_iff.mp hq with ⟨h1, h2⟩ | ⟨_, hqm⟩
          · rw [h1, h2]; exact hc
          · exact hm' q hqm
        · rw [if_neg hc]; exact hm'
    · intro q hq; cases hq
  exact main p hp

theorem C6_witness : (2 : Nat) ≠ 1 :=
  C6_parent_mapping_no_self_loop W1 [(1, [(1, 100), (2, 100)])] (2, 1) (by decide)

theorem mem_blockKeys {T : Table} {k : Str} :
    k ∈ blockKeys T ↔ ∃ r ∈ T.rows, keyOf r = some k := by
  unfold blockKeys sortStrAsc
  rw [mem_sortStable, List.mem_dedup, List.mem_filterMap]

theorem nodup_blockKeys (T : Table) : (blockKeys T).Nodup := by
  unfold blockKeys sortStrAsc
  exact ((sortStable_perm _ _).nodup_iff).mpr (List.nodup_dedup _)

theorem countP_eq_one_of_nodup_mem {α : Type} [DecidableEq α] {l : List α} {a : α}
    (hn : l.Nodup) (ha : a ∈ l) : l.countP (fun x => decide (x = a)) = 1 := by
  induction l with
  | nil => cases ha
  | cons b bs ih =>
    rw [List.countP_cons]
    rcases List.mem_cons.mp ha with rfl | ha'
    · have hzero : bs.countP (fun x => decide (x = a)) = 0 := by
        rw [List.countP_eq_zero]
        intro x hx
        simp only [decide_eq_true_eq]
        intro hxb
        exact (List.nodup_cons.mp hn).1 (hxb ▸ hx)
      simp [hzero]
    · have hb : ¬ (b = a) := by
        intro hba
        exact (List.nodup_cons.mp hn).1 (hba ▸ ha')
      rw [ih (List.nodup_cons.mp hn).2 ha']
      simp [hb]

theorem sum_map_add_nat {α : Type} (l : List α) (f g : α → ℕ) :
    (l.map (fun a => f a + g a)).sum = (l.map f).sum + (l.map g).sum := by
  induction l with
  | nil => rfl
  | cons a as ih =>
    simp only [List.map_cons, List.sum_cons, ih]
    omega

theorem sum_indicator_eq_one {α : Type} [DecidableEq α] {l : List α} {a : α}
    (hn : l.Nodup) (ha : a ∈ l) :
    (l.map (fun x => if x = a then 1 else 0)).sum = 1 := by
  induction l with
  | nil => cases ha
  | cons b bs ih =>
    simp only [List.map_cons, List.sum_cons]
    rcases List.mem_cons.mp ha with rfl | ha'
    · have hzero : (bs.map (fun x => if x = a then 1 else 0)).sum = 0 := by
        rw [List.sum_eq_zero]
        intro x hx
        rcases List.mem_map.mp hx with ⟨y, hy, hye⟩
        rw [← hye]
        have : ¬ (y = a) := fun hya => (List.nodup_cons.mp hn).1 (hya ▸ hy)
        simp [this]
      simp [hzero]
    · have hb : ¬ (b = a) := fun hba => (List.nodup_cons.mp hn).1 (hba ▸ ha')
      rw [ih (List.nodup_cons.mp hn).2 ha']
      simp [hb]

theorem sum_block_sizes (keys : List Str) (hn : keys.Nodup) :
    ∀ rows : List Rec, (∀ r ∈ rows, ∀ k, keyOf r = some k → k ∈ keys) →
    (keys.map (fun k => (rows.filter (fun r => decide (keyOf r = some k))).length)).sum
      = rows.countP (fun r => (keyOf r).isSome) := by
  intro rows
  induction rows with
  | nil => intro _; simp
  | cons r rows ih =>
    intro hc
    have hmap : keys.map
          (fun k => (((r :: rows).filter (fun x => decide (keyOf x = some k)))).length)
        = keys.map (fun k => (if keyOf r = some k then 1 else 0) +
            ((rows.filter (fun x => decide (keyOf x = some k)))).length) := by
      apply List.map_congr_left
      intro k _
      rw [List.filter_cons]
      by_cases h : keyOf r = some k
      · simp [h]
        omega
      · simp [h]
    rw [hmap, sum_map_add_nat, ih (fun x hx => hc x (List.mem_cons_of_mem r hx)),
      List.countP_cons]
    have hind : (keys.map (fun k => if keyOf r = some k then 1 else 0)).sum
        = if (keyOf r).isSome = true then 1 else 0 := by
      cases hk : keyOf r with
      | none =>
        rw [List.sum_eq_zero]
        · rfl
        · intro x hx
          rcases List.mem_map.mp hx with ⟨k, _, hxe⟩
          rw [← hxe]
          simp
      | some k0 =>
        have hk0 : k0 ∈ keys := hc r (List.mem_cons_self r rows) k0 hk
        have hrw : keys.map (fun k => if (some k0 : Cell) = some k then 1 else 0)
            = keys.map (fun k => if k = k0 then 1 else 0) := by
          apply List.map_congr_left
          intro k _
          by_cases h : k = k0
          · simp [h]
          · have hne : ¬ ((some k0 : Cell) = some k) := by
              simpa [eq_comm] using h
            simp [h, hne]
        rw [hrw, sum_indicator_eq_one hn hk0]
        rfl
    rw [hind]
    omega

/-- Claim C3 counterexample: on a table holding two records with an empty
part number and one with a missing part number, the blocking of
`parallel_grouping` puts both empty-keyed records into one shared block (not
two singleton blocks) and drops the NaN-keyed record from every block, so the
block sizes sum to 2 while the table has 3 rows. -/
theorem C3_counterexample :
    (blockPartition (addBlockCol W3)).map (fun b => b.map Rec.cifa) = [[1, 2]] ∧
    (addBlockCol W3).rows.length = 3 ∧
    ((blockPartition (addBlockCol W3)).map List.length).sum = 2 := by
  decide

/-- Claim C3 (corrected): the blocking partition is total and disjoint only
over the records whose blocking key is defined — each such record appears in
exactly one block and the block sizes sum to the number of key-defined
records; a record with an undefined (NaN) key appears in no block, and
records with an empty-string key all share the single empty-prefix block
rather than forming singleton blocks. -/
theorem C3_amended (T : Table) :
    (∀ r ∈ T.rows, keyOf r = none → ∀ b ∈ blockPartition T, r ∉ b) ∧
    (∀ r ∈ T.rows, ∀ k, keyOf r = some k →
      (blockPartition T).countP (fun b => decide (r ∈ b)) = 1) ∧
    ((blockPartition T).map List.length).sum =
      T.rows.countP (fun r => (keyOf r).isSome) := by
  refine ⟨?_, ?_, ?_⟩
  · intro r _ hkey b hb hrb
    unfold blockPartition at hb
    rcases List.mem_map.mp hb with ⟨k, _, hbk⟩
    subst hbk
    have hmem := List.mem_filter.mp hrb
    rw [hkey] at hmem
    simpa using hmem.2
  · intro r hr k hk
    unfold blockPartition
    rw [List.countP_map]
    have hpoint : ∀ k' ∈ blockKeys T,
        (((fun b => decide (r ∈ b)) ∘
          (fun k' => T.rows.filter (fun x => decide (keyOf x = some k')))) k' = true ↔
          decide (k' = k) = true) := by
      intro k' _
      simp only [Function.comp_apply, decide_eq_true_eq, List.mem_filter, hr, true_and,
        hk, Option.some.injEq]
      exact eq_comm
    rw [List.countP_congr hpoint]
    exact countP_eq_one_of_nodup_mem (nodup_blockKeys T) (mem_blockKeys.mpr ⟨r, hr, hk⟩)
  · unfold blockPartition
    rw [List.map_map]
    exact sum_block_sizes (blockKeys T) (nodup_blockKeys T) T.rows
      (fun r hr k hk => mem_blockKeys.mpr ⟨r, hr, hk⟩)

theorem C3_amended_witness :
    (blockPartition (addBlockCol W2)).countP
      (fun b => decide ((⟨1, none, none, 0,
        [("mfg_part_number", some (str "AAAx")), ("d", some (str "w")),
         ("prefix_group", some (str "AAA"))]⟩ : Rec) ∈ b)) = 1 :=
  (C3_amended (addBlockCol W2)).2.1 _ (by decide) (str "AAA") (by decide)

end ARCNet
